import Mathlib

/-!
Verification development for the pyzstd wrapper (files `pyzstd.py` and
`src/pyzstd.py` of the repository).

The repository is a thin Python adaptation layer over a native zstd codec.
The Python-layer control flow (top-level `compress`/`decompress`,
`train_dict`, `EndlessDecompressReader.read`, `ZstdFile`, `zstd_open`) is
translated here directly from the source.  The native codec itself
(`_zstd.ZstdCompressor`, `_zstd.ZstdDecompressor`, `_zstd._train_dict`,
parameter bound tables) is not part of the source tree, so those parts are
modelled from the specification: an LZ-style framed codec with a magic
header, Raw and RLE blocks carrying a last-block flag, a trailing checksum
over the decompressed content, an incremental block-granular decoder that
retains incomplete input, and a streaming compressor with
continue/end-frame directives.
-/

namespace PyZstd

/-- A byte string is modelled as a list of naturals; a well-formed byte is
below 256. -/
abbrev Bytes := List Nat

/-- Errors surfaced by the modelled native codec. -/
inductive ZErr where
  | corrupt
  | checksumMismatch
  | incompleteFrame
  | config
  deriving DecidableEq, Repr

/-- Python-level exceptions raised by the wrapper code. -/
inductive PyErr where
  | valueError
  | typeError
  | nameError
  | attrError
  | unsupportedOp
  | configError
  deriving DecidableEq, Repr

/-- Concatenation of a list of byte strings. -/
def catList : List Bytes → Bytes
  | [] => []
  | a :: r => a ++ catList r

/-- Sum of the bytes of a byte string, used for the frame checksum. -/
def byteSum : Bytes → Nat
  | [] => 0
  | a :: r => a + byteSum r

/-- Modelled from the spec: the 4 magic bytes opening every frame
(the wire format of section 6 of the specification). -/
def MAGIC : Bytes := [40, 181, 47, 253]

/-- Little-endian 4-byte encoding of a 32-bit value. -/
def enc32 (n : Nat) : Bytes :=
  [n % 256, n / 256 % 256, n / 65536 % 256, n / 16777216 % 256]

/-- Little-endian 4-byte decoding. -/
def dec32 : Bytes → Nat
  | [a, b, c, d] => a + 256 * b + 65536 * c + 16777216 * d
  | _ => 0

/-- The last-block flag byte. -/
def bitOf (b : Bool) : Nat := if b then 1 else 0

/-- Modelled from the spec: one encoded block.  A block is either RLE
(kind byte 1, a repeated byte) when the chunk is a nonempty run and the
strategy searches for runs, or Raw (kind byte 0, payload verbatim).  The
header carries the kind, the last-block flag and the payload size. -/
def encodeBlock (tryRLE : Bool) (last : Bool) : Bytes → Bytes
  | [] => [0, bitOf last, 0]
  | b :: t =>
    if tryRLE && t.all (· == b) then [1, bitOf last, t.length + 1, b]
    else [0, bitOf last, (b :: t).length] ++ (b :: t)

/-- Split the input into chunks of at most `szm1 + 1` bytes; the fuel is an
upper bound on the recursion depth (the input length suffices). -/
def chunkGo (szm1 : Nat) : Nat → Bytes → List Bytes
  | 0, l => [l]
  | fuel + 1, l =>
    if l.length ≤ szm1 + 1 then [l]
    else l.take (szm1 + 1) :: chunkGo szm1 fuel (l.drop (szm1 + 1))

/-- Chunking of a whole input for block formation. -/
def chunkAux (szm1 : Nat) (l : Bytes) : List Bytes := chunkGo szm1 l.length l

/-- Encode a nonempty list of chunks as blocks, marking the final chunk as
the last block of the frame. -/
def encodeBlockList (tryRLE : Bool) : List Bytes → List Bytes
  | [] => []
  | [c] => [encodeBlock tryRLE true c]
  | c :: c2 :: cs => encodeBlock tryRLE false c :: encodeBlockList tryRLE (c2 :: cs)

/-- Byte string of all blocks of a frame. -/
def encodeBlocks (tryRLE : Bool) (cs : List Bytes) : Bytes :=
  catList (encodeBlockList tryRLE cs)

/-- Modelled from the spec: decoder state machine stages
(AwaitingFrameHeader, AwaitingBlockHeader/ReadingBlockPayload,
AwaitingChecksum), carrying the running checksum of the content decoded in
the current frame. -/
inductive Stage where
  | frameHeader
  | inBlocks (csum : Nat)
  | inTrailer (csum : Nat)
  deriving DecidableEq, Repr

/-- Result of trying to consume one complete unit from the buffered
input: not enough bytes yet, a fatal corrupt-stream error, or a consumed
unit with its decoded output, the next stage and the remaining bytes. -/
inductive StepRes where
  | needMore
  | fail (e : ZErr)
  | emit (out : Bytes) (st : Stage) (rest : Bytes)
  deriving DecidableEq, Repr

/-- Modelled from the spec: consume one complete unit (frame header, one
block with its payload, or the trailer) from the front of the buffer.  A
truncated unit is `needMore`; a malformed one is a fatal error.  The
decoder never reads past a declared boundary. -/
def step : Stage → Bytes → StepRes
  | .frameHeader, buf =>
    if 4 ≤ buf.length then
      if buf.take 4 = MAGIC then .emit [] (.inBlocks 0) (buf.drop 4)
      else .fail .corrupt
    else .needMore
  | .inBlocks _, [] => .needMore
  | .inBlocks s, 0 :: lastB :: n :: tail =>
    if lastB = 0 ∨ lastB = 1 then
      if n ≤ tail.length then
        .emit (tail.take n)
          (if lastB = 1 then .inTrailer (s + byteSum (tail.take n))
           else .inBlocks (s + byteSum (tail.take n)))
          (tail.drop n)
      else .needMore
    else .fail .corrupt
  | .inBlocks _, 0 :: _ => .needMore
  | .inBlocks s, 1 :: lastB :: n :: b :: tail =>
    if lastB = 0 ∨ lastB = 1 then
      .emit (List.replicate n b)
        (if lastB = 1 then .inTrailer (s + n * b) else .inBlocks (s + n * b))
        tail
    else .fail .corrupt
  | .inBlocks _, 1 :: _ => .needMore
  | .inBlocks _, _ :: _ => .fail .corrupt
  | .inTrailer s, buf =>
    if 4 ≤ buf.length then
      if dec32 (buf.take 4) = s % 4294967296 then
        .emit [] .frameHeader (buf.drop 4)
      else .fail .checksumMismatch
    else .needMore

/-- Result of running the decoder until it is stuck: the decoded output so
far, and either the resting stage with the retained incomplete bytes, or a
fatal error. -/
inductive DrainRes where
  | good (out : Bytes) (st : Stage) (rest : Bytes)
  | bad (e : ZErr) (out : Bytes)
  deriving DecidableEq, Repr

/-- Prepend already-decoded output to a drain result. -/
def prependD (o : Bytes) : DrainRes → DrainRes
  | .good o2 s r => .good (o ++ o2) s r
  | .bad e o2 => .bad e (o ++ o2)

/-- Run `step` repeatedly until the buffer holds no complete unit.  Each
step consumes at least one byte, so the buffer length bounds the number of
steps and serves as fuel. -/
def drainGo : Nat → Stage → Bytes → DrainRes
  | 0, st, buf => .good [] st buf
  | fuel + 1, st, buf =>
    match step st buf with
    | .needMore => .good [] st buf
    | .fail e => .bad e []
    | .emit o s2 r => prependD o (drainGo fuel s2 r)

/-- Decode as much of the buffer as forms complete units. -/
def drain (st : Stage) (buf : Bytes) : DrainRes := drainGo buf.length st buf

/-- Modelled from the spec: the state of a streaming decompressor session.
`buf` retains incomplete trailing input, `pending` holds decoded output
not yet returned to the caller. -/
structure ZstdDecompressor where
  stage : Stage
  buf : Bytes
  pending : Bytes
  deriving DecidableEq, Repr

/-- A fresh decompressor session. -/
def ZstdDecompressor.mk0 : ZstdDecompressor := ⟨.frameHeader, [], []⟩

/-- The `needs_input` attribute: more input could allow progress and no
decoded output is waiting to be returned. -/
def needsInput (d : ZstdDecompressor) : Bool := d.pending.isEmpty

/-- The `at_frame_edge` attribute: all input consumed so far forms
complete frames. -/
def atFrameEdge (d : ZstdDecompressor) : Bool :=
  match d.stage with
  | .frameHeader => d.buf.isEmpty
  | _ => false

/-- Modelled from the spec: one `decompress(data, max_length)` call of the
native streaming decompressor.  New input is appended to the retained
buffer, complete blocks are decoded, and at most `max_length` bytes are
returned when a limit is given, the remainder staying pending. -/
def ZstdDecompressor.decompress (d : ZstdDecompressor) (data : Bytes)
    (maxLen : Option Nat) : Except ZErr (Bytes × ZstdDecompressor) :=
  match drain d.stage (d.buf ++ data) with
  | .bad e _ => .error e
  | .good o s2 rest =>
    match maxLen with
    | none => .ok (d.pending ++ o, ⟨s2, rest, []⟩)
    | some m => .ok ((d.pending ++ o).take m, ⟨s2, rest, (d.pending ++ o).drop m⟩)

/-- Compression strategies, as enumerated by the source `Strategy`
enum. -/
inductive Strategy where
  | fast
  | dfast
  | greedy
  | lazy
  | lazy2
  | btlazy2
  | btopt
  | btultra
  | btultra2
  deriving DecidableEq, Repr

/-- Modelled from the spec: the fastest strategy spends no effort on run
detection, the others fall back to an RLE block for a run. -/
def Strategy.tryRLE : Strategy → Bool
  | .fast => false
  | _ => true

/-- Modelled from the spec: lower bound of the supported compression
levels. -/
def minCLevel : Int := -131072

/-- Modelled from the spec: upper bound of the supported compression
levels. -/
def maxCLevel : Int := 22

/-- Modelled from the spec: the level selects the target block size as part
of its bundled policy; block payload sizes stay below 256 so the size fits
the one-byte header field. -/
def blockSizeM1 (lvl : Int) : Nat := min 254 (63 + lvl.toNat * 8)

/-- End directives of the streaming compressor: collect more data, or
flush everything and close the frame. -/
inductive EndDir where
  | more
  | endFrame
  deriving DecidableEq, Repr

/-- Modelled from the spec: the state of a streaming compressor session. -/
structure ZstdCompressor where
  started : Bool
  pending : Bytes
  csum : Nat
  szm1 : Nat
  tryRLE : Bool
  deriving DecidableEq, Repr

/-- Modelled from the spec: session construction validates the level
against its declared bounds, a configuration error is raised here and
never at compress time. -/
def ZstdCompressor.new (lvl : Int) (strat : Strategy) :
    Except ZErr ZstdCompressor :=
  if minCLevel ≤ lvl ∧ lvl ≤ maxCLevel then
    .ok ⟨false, [], 0, blockSizeM1 lvl, strat.tryRLE⟩
  else .error .config

/-- Emit full blocks for every complete chunk of the pending input,
keeping the remainder buffered; fueled like `chunkGo`. -/
def emitGo (tryRLE : Bool) (szm1 : Nat) : Nat → Bytes → Bytes × Bytes × Nat
  | 0, l => ([], l, 0)
  | fuel + 1, l =>
    if l.length ≤ szm1 + 1 then ([], l, 0)
    else
      let c := l.take (szm1 + 1)
      let r := emitGo tryRLE szm1 fuel (l.drop (szm1 + 1))
      (encodeBlock tryRLE false c ++ r.1, r.2.1, byteSum c + r.2.2)

/-- Modelled from the spec: one `compress(data, mode)` call of the native
streaming compressor.  With the continue directive it buffers input and
emits complete blocks; with the end-frame directive it flushes everything,
marks the final block as last and writes the checksum trailer. -/
def ZstdCompressor.compress (c : ZstdCompressor) (data : Bytes)
    (mode : EndDir) : Bytes × ZstdCompressor :=
  match mode with
  | .more =>
    let pend := c.pending ++ data
    let r := emitGo c.tryRLE c.szm1 pend.length pend
    let headerOut := if c.started then [] else MAGIC
    (headerOut ++ r.1,
     { c with started := true, pending := r.2.1, csum := c.csum + r.2.2 })
  | .endFrame =>
    let pend := c.pending ++ data
    let headerOut := if c.started then [] else MAGIC
    (headerOut ++ encodeBlocks c.tryRLE (chunkAux c.szm1 pend) ++
       enc32 ((c.csum + byteSum pend) % 4294967296),
     { c with started := false, pending := [], csum := 0 })

/-- The compressor `flush()` used by `ZstdFile.close`: flush any remaining
data and close the frame. -/
def ZstdCompressor.flush (c : ZstdCompressor) : Bytes × ZstdCompressor :=
  c.compress [] .endFrame

/-- Translated from `src/src/pyzstd.py` `compress`: build a compressor for
the level and option, then compress the whole block with the end-frame
directive. -/
def compress (data : Bytes) (lvl : Int) (strat : Strategy) :
    Except ZErr Bytes :=
  match ZstdCompressor.new lvl strat with
  | .error e => .error e
  | .ok c => .ok (c.compress data .endFrame).1

/-- Translated from `src/src/pyzstd.py` `decompress`: run the streaming
decompressor over the whole input and raise `ZstdError` when the data does
not end at a frame edge. -/
def decompress (data : Bytes) : Except ZErr Bytes :=
  match ZstdDecompressor.mk0.decompress data none with
  | .error e => .error e
  | .ok (out, d) =>
    if atFrameEdge d then .ok out else .error .incompleteFrame

/-- Translated from `pyzstd.py` (the legacy top-level module) `decompress`:
the result of the streaming decompressor is returned directly, with no
frame-edge check. -/
def decompress_legacy (data : Bytes) : Except ZErr Bytes :=
  match ZstdDecompressor.mk0.decompress data none with
  | .error e => .error e
  | .ok (out, _) => .ok out

/-- The byte string produced by compressing `b` in one frame (header,
blocks, checksum trailer). -/
def frameBytes (tryRLE : Bool) (szm1 : Nat) (b : Bytes) : Bytes :=
  MAGIC ++ encodeBlocks tryRLE (chunkAux szm1 b) ++
    enc32 (byteSum b % 4294967296)

/-! ### List helper lemmas -/

theorem take_append_le {α : Type} :
    ∀ (n : Nat) (l r : List α), n ≤ l.length → (l ++ r).take n = l.take n := by
  intro n l
  induction l generalizing n with
  | nil =>
    intro r h
    have hn : n = 0 := by simpa using h
    subst hn
    simp
  | cons a t ih =>
    intro r h
    cases n with
    | zero => simp
    | succ m =>
      simp only [List.cons_append, List.take, List.append_eq]
      rw [ih m r (by simpa using h)]

theorem drop_append_le {α : Type} :
    ∀ (n : Nat) (l r : List α), n ≤ l.length →
      (l ++ r).drop n = l.drop n ++ r := by
  intro n l
  induction l generalizing n with
  | nil =>
    intro r h
    have hn : n = 0 := by simpa using h
    subst hn
    simp
  | cons a t ih =>
    intro r h
    cases n with
    | zero => simp
    | succ m =>
      simp only [List.cons_append, List.drop, List.append_eq]
      exact ih m r (by simpa using h)

theorem byteSum_append (l r : Bytes) :
    byteSum (l ++ r) = byteSum l + byteSum r := by
  induction l with
  | nil => simp [byteSum]
  | cons a t ih => simp [byteSum, ih]; omega

theorem catList_append (l r : List Bytes) :
    catList (l ++ r) = catList l ++ catList r := by
  induction l with
  | nil => simp [catList]
  | cons a t ih => simp [catList, ih]

theorem isEmpty_true_iff {α : Type} (l : List α) :
    l.isEmpty = true ↔ l = [] := by
  cases l <;> simp

/-! ### Step lemmas -/

theorem step_nil (st : Stage) : step st [] = .needMore := by
  cases st <;> simp [step]

theorem step_consumes {st : Stage} {buf o : Bytes} {s2 : Stage} {r : Bytes}
    (h : step st buf = .emit o s2 r) : r.length < buf.length := by
  cases st with
  | frameHeader =>
    simp only [step] at h
    split at h
    · split at h
      · cases h
        simp only [List.length_drop]
        omega
      · cases h
    · cases h
  | inBlocks s =>
    match buf with
    | [] => simp [step] at h
    | 0 :: lastB :: n :: tail =>
      simp only [step] at h
      split at h
      · split at h
        · cases h
          simp only [List.length_drop, List.length_cons]
          omega
        · cases h
      · cases h
    | [0] | [0, lastB] => simp [step] at h
    | 1 :: lastB :: n :: b :: tail =>
      simp only [step] at h
      split at h
      · cases h
        simp only [List.length_cons]
        omega
      · cases h
    | [1] | [1, lastB] | [1, lastB, n] => simp [step] at h
    | (k + 2) :: tail => simp [step] at h
  | inTrailer s =>
    simp only [step] at h
    split at h
    · split at h
      · cases h
        simp only [List.length_drop]
        omega
      · cases h
    · cases h

theorem step_emit_append {st : Stage} {buf o : Bytes} {s2 : Stage}
    {r : Bytes} (ext : Bytes) (h : step st buf = .emit o s2 r) :
    step st (buf ++ ext) = .emit o s2 (r ++ ext) := by
  cases st with
  | frameHeader =>
    simp only [step] at h
    split at h
    · split at h
      · rename_i h4 hm
        cases h
        simp only [step, List.length_append]
        rw [if_pos (by omega), take_append_le 4 buf ext h4, if_pos hm,
          drop_append_le 4 buf ext h4]
      · cases h
    · cases h
  | inBlocks s =>
    match buf with
    | [] => simp [step] at h
    | 0 :: lastB :: n :: tail =>
      simp only [step] at h
      split at h
      · split at h
        · rename_i hl hn
          cases h
          simp only [List.cons_append, step]
          rw [if_pos hl, if_pos (by simp; omega),
            take_append_le n tail ext hn, drop_append_le n tail ext hn]
        · cases h
      · cases h
    | [0] | [0, lastB] => simp [step] at h
    | 1 :: lastB :: n :: b :: tail =>
      simp only [step] at h
      split at h
      · rename_i hl
        cases h
        simp only [List.cons_append, step]
        rw [if_pos hl]
      · cases h
    | [1] | [1, lastB] | [1, lastB, n] => simp [step] at h
    | (k + 2) :: tail => simp [step] at h
  | inTrailer s =>
    simp only [step] at h
    split at h
    · split at h
      · rename_i h4 hm
        cases h
        simp only [step, List.length_append]
        rw [if_pos (by omega), take_append_le 4 buf ext h4, if_pos hm,
          drop_append_le 4 buf ext h4]
      · cases h
    · cases h

theorem step_fail_append {st : Stage} {buf : Bytes} {e : ZErr}
    (ext : Bytes) (h : step st buf = .fail e) :
    step st (buf ++ ext) = .fail e := by
  cases st with
  | frameHeader =>
    simp only [step] at h
    split at h
    · split at h
      · cases h
      · rename_i h4 hm
        cases h
        simp only [step, List.length_append]
        rw [if_pos (by omega), take_append_le 4 buf ext h4, if_neg hm]
    · cases h
  | inBlocks s =>
    match buf with
    | [] => simp [step] at h
    | 0 :: lastB :: n :: tail =>
      simp only [step] at h
      split at h
      · split at h <;> cases h
      · rename_i hl
        cases h
        simp only [List.cons_append, step]
        rw [if_neg hl]
    | [0] | [0, lastB] => simp [step] at h
    | 1 :: lastB :: n :: b :: tail =>
      simp only [step] at h
      split at h
      · cases h
      · rename_i hl
        cases h
        simp only [List.cons_append, step]
        rw [if_neg hl]
    | [1] | [1, lastB] | [1, lastB, n] => simp [step] at h
    | (k + 2) :: tail =>
      simp only [step] at h
      cases h
      simp [step]
  | inTrailer s =>
    simp only [step] at h
    split at h
    · split at h
      · cases h
      · rename_i h4 hm
        cases h
        simp only [step, List.length_append]
        rw [if_pos (by omega), take_append_le 4 buf ext h4, if_neg hm]
    · cases h

/-! ### Drain lemmas -/

theorem length_zero_nil {α : Type} {l : List α} (h : l.length = 0) :
    l = [] := by
  cases l with
  | nil => rfl
  | cons a t => simp at h

theorem prependD_nil (x : DrainRes) : prependD [] x = x := by
  cases x <;> simp [prependD]

theorem prependD_prependD (a b : Bytes) (x : DrainRes) :
    prependD a (prependD b x) = prependD (a ++ b) x := by
  cases x <;> simp [prependD]

theorem drainGo_congr :
    ∀ (f g : Nat) (st : Stage) (buf : Bytes), buf.length ≤ f →
      buf.length ≤ g → drainGo f st buf = drainGo g st buf := by
  intro f
  induction f with
  | zero =>
    intro g st buf hf hg
    have hb : buf = [] := length_zero_nil (by omega)
    subst hb
    cases g with
    | zero => rfl
    | succ g2 => simp [drainGo, step_nil]
  | succ f2 ih =>
    intro g st buf hf hg
    cases g with
    | zero =>
      have hb : buf = [] := length_zero_nil (by omega)
      subst hb
      simp [drainGo, step_nil]
    | succ g2 =>
      cases hstep : step st buf with
      | needMore => simp [drainGo, hstep]
      | fail e => simp [drainGo, hstep]
      | emit o s2 r =>
        have hc := step_consumes hstep
        simp only [drainGo, hstep]
        rw [ih g2 s2 r (by omega) (by omega)]

theorem drain_nil (st : Stage) : drain st [] = .good [] st [] := rfl

theorem drain_of_needMore {st : Stage} {buf : Bytes}
    (h : step st buf = .needMore) : drain st buf = .good [] st buf := by
  unfold drain
  cases hb : buf.length with
  | zero => simp [drainGo]
  | succ m => simp [drainGo, h]

theorem drain_of_fail {st : Stage} {buf : Bytes} {e : ZErr}
    (h : step st buf = .fail e) : drain st buf = .bad e [] := by
  unfold drain
  cases hb : buf.length with
  | zero =>
    have hn : buf = [] := length_zero_nil hb
    rw [hn, step_nil] at h
    cases h
  | succ m => simp [drainGo, h]

theorem drain_of_emit {st : Stage} {buf o : Bytes} {s2 : Stage} {r : Bytes}
    (h : step st buf = .emit o s2 r) :
    drain st buf = prependD o (drain s2 r) := by
  have hc := step_consumes h
  unfold drain
  cases hb : buf.length with
  | zero => omega
  | succ m =>
    simp only [drainGo, h]
    rw [drainGo_congr m r.length s2 r (by omega) (le_refl _)]

theorem drain_append (st : Stage) (buf ext : Bytes) :
    drain st (buf ++ ext) =
      match drain st buf with
      | .good o s r => prependD o (drain s (r ++ ext))
      | .bad e o => .bad e o := by
  have H : ∀ (n : Nat) (st : Stage) (buf : Bytes), buf.length = n →
      drain st (buf ++ ext) =
        (match drain st buf with
         | .good o s r => prependD o (drain s (r ++ ext))
         | .bad e o => .bad e o) := by
    intro n
    induction n using Nat.strong_induction_on with
    | _ n ih =>
      intro st buf hn
      cases hstep : step st buf with
      | needMore =>
        rw [drain_of_needMore hstep]
        simp only []
        rw [prependD_nil]
      | fail e =>
        rw [drain_of_fail hstep, drain_of_fail (step_fail_append ext hstep)]
      | emit o s2 r =>
        have hc := step_consumes hstep
        rw [drain_of_emit (step_emit_append ext hstep), drain_of_emit hstep,
          ih r.length (by omega) s2 r rfl]
        cases hdr : drain s2 r with
        | good o2 s3 r3 =>
          simp only [prependD, prependD_prependD]
          cases drain s3 (r3 ++ ext) <;> simp [List.append_assoc]
        | bad e o2 => simp only [prependD]
  exact H buf.length st buf rfl

theorem drain_good_stuck {st : Stage} {buf o : Bytes} {s : Stage}
    {r : Bytes} (h : drain st buf = .good o s r) : step s r = .needMore := by
  have H : ∀ (n : Nat) (st : Stage) (buf o : Bytes) (s : Stage) (r : Bytes),
      buf.length = n → drain st buf = .good o s r →
      step s r = .needMore := by
    intro n
    induction n using Nat.strong_induction_on with
    | _ n ih =>
      intro st buf o s r hn h
      cases hstep : step st buf with
      | needMore =>
        rw [drain_of_needMore hstep] at h
        cases h
        exact hstep
      | fail e =>
        rw [drain_of_fail hstep] at h
        cases h
      | emit o1 s2 r2 =>
        have hc := step_consumes hstep
        rw [drain_of_emit hstep] at h
        cases hdr : drain s2 r2 with
        | good o2 s3 r3 =>
          rw [hdr] at h
          simp only [prependD] at h
          injection h with ho hs hr
          rw [← hs, ← hr]
          exact ih r2.length (by omega) s2 r2 o2 s3 r3 rfl hdr
        | bad e o2 =>
          rw [hdr] at h
          simp only [prependD] at h
          cases h
  exact H buf.length st buf o s r rfl h

/-! ### Block encoding lemmas -/

theorem replicate_all_eq {b : Nat} :
    ∀ t : Bytes, t.all (· == b) = true → List.replicate t.length b = t := by
  intro t
  induction t with
  | nil => intro h; simp
  | cons a r ih =>
    intro h
    simp only [List.all_cons, Bool.and_eq_true, beq_iff_eq] at h
    obtain ⟨ha, hr⟩ := h
    subst ha
    simp only [List.length_cons, List.replicate]
    rw [ih hr]

theorem byteSum_all_eq {b : Nat} :
    ∀ t : Bytes, t.all (· == b) = true → byteSum t = t.length * b := by
  intro t
  induction t with
  | nil => intro h; simp [byteSum]
  | cons a r ih =>
    intro h
    simp only [List.all_cons, Bool.and_eq_true, beq_iff_eq] at h
    obtain ⟨ha, hr⟩ := h
    subst ha
    simp only [byteSum, List.length_cons]
    rw [ih hr]
    ring

theorem bitOf_false : bitOf false = 0 := rfl

theorem bitOf_true : bitOf true = 1 := rfl

theorem catList_cons (a : Bytes) (l : List Bytes) :
    catList (a :: l) = a ++ catList l := rfl

theorem step_encodeBlock_last (tryR : Bool) (s : Nat) (c rest : Bytes) :
    step (.inBlocks s) (encodeBlock tryR true c ++ rest) =
      .emit c (.inTrailer (s + byteSum c)) rest := by
  match c with
  | [] =>
    show step (.inBlocks s) (0 :: 1 :: 0 :: rest) = _
    simp [step, byteSum]
  | b :: t =>
    by_cases hr : (tryR && t.all (· == b)) = true
    · have hall : t.all (· == b) = true := (Bool.and_eq_true _ _).mp hr |>.2
      have hrepl : List.replicate (t.length + 1) b = b :: t := by
        simp only [List.replicate]
        rw [replicate_all_eq t hall]
      have hsum2 : s + (t.length + 1) * b = s + byteSum (b :: t) := by
        simp only [byteSum]
        rw [byteSum_all_eq t hall]
        ring
      have hb : encodeBlock tryR true (b :: t) = [1, 1, t.length + 1, b] := by
        simp [encodeBlock, hr, bitOf]
      rw [hb]
      show step (.inBlocks s) (1 :: 1 :: (t.length + 1) :: b :: rest) = _
      simp only [step]
      rw [if_pos (by simp), hrepl, hsum2]
      simp
    · have hb : encodeBlock tryR true (b :: t) =
          [0, 1, (b :: t).length] ++ (b :: t) := by
        simp [encodeBlock, hr, bitOf]
      rw [hb, List.append_assoc]
      show step (.inBlocks s)
          (0 :: 1 :: (b :: t).length :: ((b :: t) ++ rest)) = _
      simp only [step]
      rw [if_pos (by simp), if_pos (by simp), List.take_left,
        List.drop_left]
      simp

theorem step_encodeBlock_mid (tryR : Bool) (s : Nat) (c rest : Bytes) :
    step (.inBlocks s) (encodeBlock tryR false c ++ rest) =
      .emit c (.inBlocks (s + byteSum c)) rest := by
  match c with
  | [] =>
    show step (.inBlocks s) (0 :: 0 :: 0 :: rest) = _
    simp [step, byteSum]
  | b :: t =>
    by_cases hr : (tryR && t.all (· == b)) = true
    · have hall : t.all (· == b) = true := (Bool.and_eq_true _ _).mp hr |>.2
      have hrepl : List.replicate (t.length + 1) b = b :: t := by
        simp only [List.replicate]
        rw [replicate_all_eq t hall]
      have hsum2 : s + (t.length + 1) * b = s + byteSum (b :: t) := by
        simp only [byteSum]
        rw [byteSum_all_eq t hall]
        ring
      have hb : encodeBlock tryR false (b :: t) = [1, 0, t.length + 1, b] := by
        simp [encodeBlock, hr, bitOf]
      rw [hb]
      show step (.inBlocks s) (1 :: 0 :: (t.length + 1) :: b :: rest) = _
      simp only [step]
      rw [if_pos (by simp), hrepl, hsum2]
      simp
    · have hb : encodeBlock tryR false (b :: t) =
          [0, 0, (b :: t).length] ++ (b :: t) := by
        simp [encodeBlock, hr, bitOf]
      rw [hb, List.append_assoc]
      show step (.inBlocks s)
          (0 :: 0 :: (b :: t).length :: ((b :: t) ++ rest)) = _
      simp only [step]
      rw [if_pos (by simp), if_pos (by simp), List.take_left,
        List.drop_left]
      simp

theorem step_trailer (s2 x : Nat) (ext : Bytes) (hx : x = s2 % 4294967296) :
    step (.inTrailer s2) (enc32 x ++ ext) = .emit [] .frameHeader ext := by
  subst hx
  simp only [enc32, List.cons_append, List.nil_append, step]
  rw [if_pos (by simp), if_pos]
  · simp
  · simp only [List.take, dec32]
    omega

/-! ### Chunking lemmas -/

theorem catList_chunkGo (szm1 : Nat) :
    ∀ (fuel : Nat) (l : Bytes), l.length ≤ fuel →
      catList (chunkGo szm1 fuel l) = l := by
  intro fuel
  induction fuel with
  | zero =>
    intro l h
    have hn : l = [] := length_zero_nil (by omega)
    subst hn
    simp [chunkGo, catList]
  | succ f ih =>
    intro l h
    simp only [chunkGo]
    split
    · simp [catList]
    · rename_i hlen
      simp only [catList]
      rw [ih (l.drop (szm1 + 1)) (by simp only [List.length_drop]; omega)]
      exact List.take_append_drop _ l

theorem catList_chunkAux (szm1 : Nat) (l : Bytes) :
    catList (chunkAux szm1 l) = l :=
  catList_chunkGo szm1 l.length l (le_refl _)

theorem chunkGo_ne_nil (szm1 fuel : Nat) (l : Bytes) :
    chunkGo szm1 fuel l ≠ [] := by
  cases fuel with
  | zero => simp [chunkGo]
  | succ f =>
    simp only [chunkGo]
    split <;> simp

theorem chunkAux_ne_nil (szm1 : Nat) (l : Bytes) : chunkAux szm1 l ≠ [] :=
  chunkGo_ne_nil szm1 l.length l

/-! ### Frame decoding -/

theorem drain_blocks (tryR : Bool) :
    ∀ (cs : List Bytes) (s : Nat) (ext : Bytes), cs ≠ [] →
      drain (.inBlocks s)
          (encodeBlocks tryR cs ++
            enc32 ((s + byteSum (catList cs)) % 4294967296) ++ ext) =
        prependD (catList cs) (drain .frameHeader ext) := by
  intro cs
  induction cs with
  | nil => intro s ext h; exact absurd rfl h
  | cons c cs ih =>
    intro s ext _
    cases cs with
    | nil =>
      have h1 : encodeBlocks tryR [c] = encodeBlock tryR true c := by
        simp [encodeBlocks, encodeBlockList, catList]
      have h2 : catList [c] = c := by simp [catList]
      rw [h1, h2, List.append_assoc,
        drain_of_emit (step_encodeBlock_last tryR s c _),
        drain_of_emit (step_trailer (s + byteSum c) _ ext rfl),
        prependD_nil]
    | cons c2 cs2 =>
      have h1 : encodeBlocks tryR (c :: c2 :: cs2) =
          encodeBlock tryR false c ++ encodeBlocks tryR (c2 :: cs2) := rfl
      have h2 : s + byteSum (catList (c :: c2 :: cs2)) =
          s + byteSum c + byteSum (catList (c2 :: cs2)) := by
        rw [catList_cons, byteSum_append]
        omega
      rw [h1, h2, List.append_assoc, List.append_assoc,
        drain_of_emit (step_encodeBlock_mid tryR s c _),
        ← List.append_assoc (encodeBlocks tryR (c2 :: cs2)) _ ext,
        ih (s + byteSum c) ext (by simp), prependD_prependD]
      simp [catList_cons]

theorem drain_frame_body (tryR : Bool) (szm1 : Nat) (b ext : Bytes) :
    drain (.inBlocks 0)
        (encodeBlocks tryR (chunkAux szm1 b) ++
          enc32 (byteSum b % 4294967296) ++ ext) =
      prependD b (drain .frameHeader ext) := by
  have h := drain_blocks tryR (chunkAux szm1 b) 0 ext (chunkAux_ne_nil szm1 b)
  rw [catList_chunkAux] at h
  simpa using h

theorem step_magic (rest : Bytes) :
    step .frameHeader (MAGIC ++ rest) = .emit [] (.inBlocks 0) rest := by
  simp [MAGIC, step]

theorem frame_decode (tryR : Bool) (szm1 : Nat) (b ext : Bytes) :
    drain .frameHeader (frameBytes tryR szm1 b ++ ext) =
      prependD b (drain .frameHeader ext) := by
  unfold frameBytes
  rw [List.append_assoc, List.append_assoc,
    drain_of_emit (step_magic _), prependD_nil, ← List.append_assoc,
    drain_frame_body]

theorem drain_frame_nil (tryR : Bool) (szm1 : Nat) (b : Bytes) :
    drain .frameHeader (frameBytes tryR szm1 b) =
      .good b .frameHeader [] := by
  have h2 := frame_decode tryR szm1 b []
  rw [List.append_nil] at h2
  rw [h2, drain_nil]
  simp [prependD]

theorem decompress_frame (tryR : Bool) (szm1 : Nat) (b : Bytes) :
    decompress (frameBytes tryR szm1 b) = .ok b := by
  simp only [decompress, ZstdDecompressor.decompress, ZstdDecompressor.mk0,
    List.nil_append]
  rw [drain_frame_nil]
  simp [atFrameEdge]

theorem compress_eq_frame (b : Bytes) (lvl : Int) (strat : Strategy)
    (hl : minCLevel ≤ lvl ∧ lvl ≤ maxCLevel) :
    compress b lvl strat =
      .ok (frameBytes strat.tryRLE (blockSizeM1 lvl) b) := by
  unfold compress ZstdCompressor.new
  rw [if_pos hl]
  simp [ZstdCompressor.compress, frameBytes]

/-- Claim C1: for every byte sequence (the empty one included), every
supported compression level and every strategy, decompressing the result
of compression returns exactly the original bytes. -/
theorem C1_round_trip (b : Bytes) (lvl : Int) (strat : Strategy)
    (hvalid : ∀ x ∈ b, x < 256)
    (hl : minCLevel ≤ lvl ∧ lvl ≤ maxCLevel) :
    ∃ c, compress b lvl strat = .ok c ∧ decompress c = .ok b :=
  ⟨frameBytes strat.tryRLE (blockSizeM1 lvl) b,
    compress_eq_frame b lvl strat hl,
    decompress_frame strat.tryRLE (blockSizeM1 lvl) b⟩

/-- Witness for claim C1 at a concrete input. -/
theorem C1_round_trip_witness :
    ∃ c, compress [1, 2, 3] 3 .fast = .ok c ∧ decompress c = .ok [1, 2, 3] :=
  C1_round_trip [1, 2, 3] 3 .fast (by decide) (by decide)

/-! ### Truncated frames -/

theorem encodeBlockList_length (tryR : Bool) :
    ∀ cs : List Bytes, (encodeBlockList tryR cs).length = cs.length := by
  intro cs
  induction cs with
  | nil => rfl
  | cons c cs ih =>
    cases cs with
    | nil => rfl
    | cons c2 cs2 =>
      simp only [encodeBlockList, List.length_cons]
      rw [ih]
      simp

theorem encodeBlockList_take (tryR : Bool) :
    ∀ (cs : List Bytes) (k : Nat), k < cs.length →
      (encodeBlockList tryR cs).take k =
        (cs.take k).map (encodeBlock tryR false) := by
  intro cs
  induction cs with
  | nil => intro k hk; simp at hk
  | cons c cs ih =>
    intro k hk
    cases cs with
    | nil =>
      have hk0 : k = 0 := by simp at hk; omega
      subst hk0
      simp
    | cons c2 cs2 =>
      cases k with
      | zero => simp
      | succ j =>
        simp only [encodeBlockList, List.take, List.map]
        rw [ih j (by simp at hk ⊢; omega)]

theorem drain_mid_blocks (tryR : Bool) :
    ∀ (ds : List Bytes) (s : Nat),
      drain (.inBlocks s) (catList (ds.map (encodeBlock tryR false))) =
        .good (catList ds) (.inBlocks (s + byteSum (catList ds))) [] := by
  intro ds
  induction ds with
  | nil => intro s; simp [catList, byteSum, drain_nil]
  | cons d ds ih =>
    intro s
    simp only [List.map, catList_cons]
    rw [drain_of_emit (step_encodeBlock_mid tryR s d _), ih (s + byteSum d)]
    simp only [prependD, catList_cons, byteSum_append]
    rw [Nat.add_assoc]

theorem drain_all_blocks (tryR : Bool) :
    ∀ (cs : List Bytes) (s : Nat), cs ≠ [] →
      drain (.inBlocks s) (encodeBlocks tryR cs) =
        .good (catList cs) (.inTrailer (s + byteSum (catList cs))) [] := by
  intro cs
  induction cs with
  | nil => intro s h; exact absurd rfl h
  | cons c cs ih =>
    intro s _
    cases cs with
    | nil =>
      have h1 : encodeBlocks tryR [c] = encodeBlock tryR true c ++ [] := by
        simp [encodeBlocks, encodeBlockList, catList]
      have h2 : catList [c] = c := by simp [catList]
      rw [h1, h2, drain_of_emit (step_encodeBlock_last tryR s c []),
        drain_nil]
      simp [prependD]
    | cons c2 cs2 =>
      have h1 : encodeBlocks tryR (c :: c2 :: cs2) =
          encodeBlock tryR false c ++ encodeBlocks tryR (c2 :: cs2) := rfl
      rw [h1, drain_of_emit (step_encodeBlock_mid tryR s c _),
        ih (s + byteSum c) (by simp)]
      simp only [prependD, catList_cons, byteSum_append]
      rw [Nat.add_assoc]

theorem decompress_of_drain {data o : Bytes} {s2 : Stage} {r : Bytes}
    (h : drain .frameHeader data = .good o s2 r) :
    decompress data =
      if atFrameEdge ⟨s2, r, []⟩ then .ok o else .error .incompleteFrame := by
  simp only [decompress, ZstdDecompressor.decompress, ZstdDecompressor.mk0,
    List.nil_append]
  rw [h]

/-- Claim C2 counterexample: a two-block frame is valid (the current
decompress accepts it in full), but the legacy top-level decompress of
`pyzstd.py`, given the same frame truncated at the block boundary before
its second block and trailer, silently returns the partial content `[5]`
instead of raising an error. -/
theorem C2_truncation_counterexample :
    decompress (MAGIC ++ [0, 0, 1, 5] ++ [0, 1, 1, 7] ++ enc32 12) =
        .ok [5, 7] ∧
      decompress_legacy (MAGIC ++ [0, 0, 1, 5]) = .ok [5] := by
  exact ⟨rfl, rfl⟩

/-- Claim C2 (amended): for the decompress of `src/src/pyzstd.py`, every
frame produced by the compressor and truncated at any block boundary
before its trailer (the prefix holding the magic header and the first `k`
encoded blocks) is rejected with the incomplete-frame `ZstdError`; the
legacy decompress of `pyzstd.py` lacks the frame-edge check and returns
the partial content silently. -/
theorem C2_truncation_detected (b : Bytes) (tryR : Bool) (szm1 : Nat)
    (k : Nat) (hk : k ≤ (encodeBlockList tryR (chunkAux szm1 b)).length) :
    decompress
        (MAGIC ++ catList ((encodeBlockList tryR (chunkAux szm1 b)).take k)) =
      .error .incompleteFrame := by
  rcases Nat.lt_or_ge k (chunkAux szm1 b).length with hlt | hge
  · have ht := encodeBlockList_take tryR (chunkAux szm1 b) k hlt
    rw [ht]
    have hd : drain .frameHeader
        (MAGIC ++ catList (((chunkAux szm1 b).take k).map
          (encodeBlock tryR false))) =
        .good (catList ((chunkAux szm1 b).take k))
          (.inBlocks (0 + byteSum (catList ((chunkAux szm1 b).take k)))) [] := by
      rw [drain_of_emit (step_magic _), drain_mid_blocks]
      simp [prependD]
    rw [decompress_of_drain hd]
    simp [atFrameEdge]
  · have hk3 : (encodeBlockList tryR (chunkAux szm1 b)).length =
        (chunkAux szm1 b).length := encodeBlockList_length tryR _
    have hk2 : k = (encodeBlockList tryR (chunkAux szm1 b)).length := by
      omega
    rw [hk2, List.take_length]
    have hd : drain .frameHeader
        (MAGIC ++ catList (encodeBlockList tryR (chunkAux szm1 b))) =
        .good (catList (chunkAux szm1 b))
          (.inTrailer (0 + byteSum (catList (chunkAux szm1 b)))) [] := by
      rw [drain_of_emit (step_magic _)]
      have := drain_all_blocks tryR (chunkAux szm1 b) 0 (chunkAux_ne_nil _ _)
      simp only [encodeBlocks] at this
      rw [this]
      simp [prependD]
    rw [decompress_of_drain hd]
    simp [atFrameEdge]

/-- Witness for the amended claim C2 at a concrete input. -/
theorem C2_truncation_detected_witness :
    decompress
        (MAGIC ++ catList ((encodeBlockList true (chunkAux 0 [1, 2, 3])).take 2)) =
      .error .incompleteFrame :=
  C2_truncation_detected [1, 2, 3] true 0 2 (by decide)

/-! ### Dictionary training -/

/-- Outcome of a call to a train_dict wrapper: either an exception was
raised before training, or the native trainer was invoked with the flat
sample buffer, the sample sizes and the dictionary size, producing the
dictionary content. -/
inductive TrainCall where
  | raised (e : PyErr)
  | invoked (flat : Bytes) (sizes : List Nat) (dictSize : Nat)
      (content : Bytes)
  deriving DecidableEq, Repr

/-- Modelled from the spec: the native dictionary trainer
(`_zstd._train_dict`), a deterministic function of the flat sample buffer,
the sample sizes and the requested size (section 4.6 of the
specification: recurring substrings are packed into a buffer of at most
the target size, with no randomized sampling). -/
def zdictTrain (flat : Bytes) (sizes : List Nat) (dictSize : Nat) : Bytes :=
  flat.take dictSize

/-- Translated from `src/src/pyzstd.py` `train_dict`: collect the samples
and their sizes, raise `ValueError` when there are no samples, otherwise
invoke the native trainer on the concatenated buffer. -/
def train_dict (samples : List Bytes) (dictSize : Nat) : TrainCall :=
  let chunks := samples
  let chunk_sizes := samples.map List.length
  if chunks.isEmpty then .raised .valueError
  else
    .invoked (catList chunks) chunk_sizes dictSize
      (zdictTrain (catList chunks) chunk_sizes dictSize)

/-- Translated from `pyzstd.py` (the legacy top-level module)
`train_dict`: the samples and sizes are collected and the native trainer
is invoked directly, with no emptiness check before the call. -/
def train_dict_legacy (samples : List Bytes) (dictSize : Nat) : TrainCall :=
  .invoked (catList samples) (samples.map List.length) dictSize
    (zdictTrain (catList samples) (samples.map List.length) dictSize)

/-- Claim C3 counterexample: the legacy `train_dict` of `pyzstd.py`, given
the empty sample iterable, raises nothing: it invokes the native trainer
with an empty flat buffer and an empty size list, so the claim as stated
over both cited `train_dict` symbols fails. -/
theorem C3_empty_samples_counterexample :
    train_dict_legacy [] 1024 = .invoked [] [] 1024 [] := rfl

/-- Claim C3 (amended): the `train_dict` of `src/src/pyzstd.py` raises
`ValueError` on every empty sample iterable before invoking the native
trainer; the legacy `train_dict` of `pyzstd.py` performs no emptiness
check and passes the zero samples straight to the trainer. -/
theorem C3_empty_samples_rejected (d : Nat) :
    train_dict [] d = .raised .valueError := rfl

/-- Claim C8: dictionary training is deterministic: two runs of
`train_dict` on the same ordered sample list and the same target size
produce byte-identical dictionary contents. -/
theorem C8_train_dict_deterministic (s : List Bytes) (d : Nat)
    (f1 f2 : Bytes) (sz1 sz2 : List Nat) (c1 c2 : Bytes)
    (h1 : train_dict s d = .invoked f1 sz1 d c1)
    (h2 : train_dict s d = .invoked f2 sz2 d c2) : c1 = c2 := by
  rw [h1] at h2
  injection h2 with hf hs hd hc

/-- Witness for claim C8 at a concrete input. -/
theorem C8_train_dict_deterministic_witness : ([1] : Bytes) = [1] :=
  C8_train_dict_deterministic [[1, 2]] 1 [1, 2] [1, 2] [2] [2] [1] [1]
    rfl rfl

/-! ### Parameter bounds -/

/-- The compression parameters, as enumerated by the source `CParameter`
enum of `src/src/pyzstd.py`. -/
inductive CParameter where
  | compressionLevel
  | windowLog
  | hashLog
  | chainLog
  | searchLog
  | minMatch
  | targetLength
  | strategy
  | enableLongDistanceMatching
  | ldmHashLog
  | ldmMinMatch
  | ldmBucketSizeLog
  | ldmHashRateLog
  | contentSizeFlag
  | checksumFlag
  | dictIDFlag
  | nbWorkers
  | jobSize
  | overlapLog
  deriving DecidableEq, Repr

/-- The decompression parameters, as enumerated by the source `DParameter`
enum. -/
inductive DParameter where
  | windowLogMax
  deriving DecidableEq, Repr

/-- Modelled from the spec: the native bound table behind
`CParameter.bounds` (`_zstd._get_cparam_bounds`), giving the inclusive
lower and upper bound of each compression parameter. -/
def CParameter.bounds : CParameter → Int × Int
  | .compressionLevel => (minCLevel, maxCLevel)
  | .windowLog => (10, 31)
  | .hashLog => (6, 30)
  | .chainLog => (6, 30)
  | .searchLog => (1, 30)
  | .minMatch => (3, 7)
  | .targetLength => (0, 131072)
  | .strategy => (1, 9)
  | .enableLongDistanceMatching => (0, 1)
  | .ldmHashLog => (6, 30)
  | .ldmMinMatch => (4, 4096)
  | .ldmBucketSizeLog => (1, 8)
  | .ldmHashRateLog => (0, 25)
  | .contentSizeFlag => (0, 1)
  | .checksumFlag => (0, 1)
  | .dictIDFlag => (0, 1)
  | .nbWorkers => (0, 200)
  | .jobSize => (0, 1073741824)
  | .overlapLog => (0, 9)

/-- Modelled from the spec: the native bound table behind
`DParameter.bounds` (`_zstd._get_dparam_bounds`). -/
def DParameter.bounds : DParameter → Int × Int
  | .windowLogMax => (10, 31)

/-- Claim C7: every compression parameter and every decompression
parameter exposes queryable bounds, a pair whose first component (the
inclusive lower bound) does not exceed its second (the inclusive upper
bound). -/
theorem C7_parameter_bounds_queryable :
    (∀ p : CParameter, (CParameter.bounds p).1 ≤ (CParameter.bounds p).2) ∧
      ∀ p : DParameter, (DParameter.bounds p).1 ≤ (DParameter.bounds p).2 := by
  constructor
  · intro p
    cases p <;> decide
  · intro p
    cases p <;> decide

/-! ### The endless decompress reader -/

/-- The read block size `_compression.BUFFER_SIZE` used by
`EndlessDecompressReader.read` when the decompressor needs input. -/
def BUFSZ : Nat := 8192

/-- `sys.maxsize`, the size passed per read by `readall`. -/
def SYSMAX : Nat := 9223372036854775807

/-- State of an `EndlessDecompressReader`: the unread remainder of the
underlying file object, the decompressor session, the position in the
decompressed stream, the eof flag and the decompressed size once known. -/
structure ReaderState where
  fp : Bytes
  dec : ZstdDecompressor
  pos : Nat
  eof : Bool
  knownSize : Option Nat
  deriving DecidableEq, Repr

/-- A fresh reader over a file object holding the given bytes. -/
def ReaderState.mk0 (fp : Bytes) : ReaderState :=
  ⟨fp, .mk0, 0, false, none⟩

/-- Translated from `src/src/pyzstd.py` `EndlessDecompressReader.read`
(the while loop and the end-of-file handling): whenever the decompressor
needs input, read a `BUFSZ`-byte block from the file object, breaking at
its end; call the decompressor with the block and the requested size and
stop once data is produced.  When the file object ends with no data, a
stream ending inside a frame raises `ZstdError`, otherwise the eof flag
and the decompressed size are recorded.  The loop is fueled; `none` means
the fuel ran out before the loop finished. -/
def readerLoop :
    Nat → ReaderState → Nat → Option (Except ZErr (Bytes × ReaderState))
  | 0, _, _ => none
  | fuel + 1, st, size =>
    if needsInput st.dec then
      if st.fp.isEmpty then
        if atFrameEdge st.dec then
          some (.ok ([], { st with eof := true, knownSize := some st.pos }))
        else some (.error .incompleteFrame)
      else
        match st.dec.decompress (st.fp.take BUFSZ) (some size) with
        | .error e => some (.error e)
        | .ok (d, dec2) =>
          if d.isEmpty then
            readerLoop fuel { st with fp := st.fp.drop BUFSZ, dec := dec2 }
              size
          else
            some (.ok (d,
              { st with
                  fp := st.fp.drop BUFSZ
                  dec := dec2
                  pos := st.pos + d.length }))
    else
      match st.dec.decompress [] (some size) with
      | .error e => some (.error e)
      | .ok (d, dec2) =>
        if d.isEmpty then readerLoop fuel { st with dec := dec2 } size
        else
          some (.ok (d,
            { st with
                dec := dec2
                pos := st.pos + d.length }))

/-- One `read(size)` call for a nonnegative size: zero size or a reader
already at eof returns the empty byte string at once. -/
def readerRead (fuel : Nat) (st : ReaderState) (size : Nat) :
    Option (Except ZErr (Bytes × ReaderState)) :=
  if size = 0 || st.eof then some (.ok ([], st)) else readerLoop fuel st size

/-- `readall` as used by `read(-1)`: repeated reads of `sys.maxsize`
bytes, collected until a read returns nothing. -/
def readerReadAll :
    Nat → ReaderState → Option (Except ZErr (Bytes × ReaderState))
  | 0, _ => none
  | fuel + 1, st =>
    match readerRead (fuel + 1) st SYSMAX with
    | none => none
    | some (.error e) => some (.error e)
    | some (.ok (d, st2)) =>
      if d.isEmpty then some (.ok ([], st2))
      else
        match readerReadAll fuel st2 with
        | none => none
        | some (.error e) => some (.error e)
        | some (.ok (rest, st3)) => some (.ok (d ++ rest, st3))

/-! ### The ZstdFile wrapper -/

/-- The three mode codes `_MODE_CLOSED`, `_MODE_READ`, `_MODE_WRITE`. -/
inductive MCode where
  | closedM
  | readM
  | writeM
  deriving DecidableEq, Repr

/-- An underlying binary file object: its byte content (the source when
reading, the sink when writing) and whether it has been closed. -/
structure FpObj where
  content : Bytes
  fpClosed : Bool
  deriving DecidableEq, Repr

/-- The type-level shape of the `level_or_option` argument. -/
inductive LOpt where
  | noneOpt
  | levelInt (lvl : Int)
  | optDict (lvl : Int) (strat : Strategy)
  | badType
  deriving DecidableEq, Repr

/-- The type-level shape of the `zstd_dict` argument: absent, a proper
`ZstdDict`, or a value of the wrong type. -/
inductive ZdArg where
  | zdNone
  | zdDict
  | zdBad
  deriving DecidableEq, Repr

/-- The `filename` argument: a path-like value (str, bytes or PathLike),
an open file object, or anything else. -/
inductive FileArg where
  | pathName (p : String)
  | fileObj (o : FpObj)
  | otherObj
  deriving DecidableEq, Repr

/-- Modelled from the spec: the native `ZstdCompressor` construction from
a `level_or_option` argument; an integer selects the level, an option
dict may select level and strategy, and the level is validated against
its declared bounds at construction. -/
def compressorOf : LOpt → Except ZErr ZstdCompressor
  | .noneOpt => ZstdCompressor.new 3 .greedy
  | .levelInt lvl => ZstdCompressor.new lvl .greedy
  | .optDict lvl strat => ZstdCompressor.new lvl strat
  | .badType => .error .config

/-- Names bound at module top level of `src/src/pyzstd.py` by its import
statements: enum, io, os, _compression, collections.namedtuple and the
native `_zstd` extension (whose star export provides the codec classes).
The name `builtins` is never bound. -/
def moduleTopNames : List String :=
  ["enum", "io", "os", "_compression", "namedtuple", "_zstd"]

/-- The state of a `ZstdFile`: `_mode`, `_fp`, `_closefp`, the
compressor of a write-mode file, the buffered reader of a read-mode file,
and `_pos`. -/
structure ZFile where
  mode : MCode
  fp : Option FpObj
  closefp : Bool
  comp : Option ZstdCompressor
  buffer : Option ReaderState
  pos : Nat
  deriving DecidableEq, Repr

/-- The mode strings accepted for reading. -/
def readModes : List (List Char) := [['r'], ['r', 'b']]

/-- The mode strings accepted for writing. -/
def writeModes : List (List Char) :=
  [['w'], ['w', 'b'], ['a'], ['a', 'b'], ['x'], ['x', 'b']]

/-- In read mode `level_or_option` must be None or a dict. -/
def loOkRead : LOpt → Bool
  | .noneOpt => true
  | .optDict _ _ => true
  | _ => false

/-- In write mode `level_or_option` must be None, an int or a dict. -/
def loOkWrite : LOpt → Bool
  | .badType => false
  | _ => true

/-- Translated from `src/src/pyzstd.py` `ZstdFile.__init__`: the
`zstd_dict` type is validated first; the mode string is dispatched over
the closed set of read and write modes, validating the type of
`level_or_option` per mode and building the compressor (which validates
its parameters) in write mode; then the filename is dispatched: a
path-like value evaluates `builtins.open`, whose name lookup fails with
`NameError` because `builtins` is not imported, a file object is adopted
directly, anything else is a `TypeError`; finally a read-mode file wraps
the file object in the decompress reader. -/
def ZFile.init (filename : FileArg) (mode : List Char) (lo : LOpt)
    (zd : ZdArg) : Except PyErr ZFile :=
  if zd = .zdBad then .error .valueError
  else if mode ∈ readModes then
    if loOkRead lo then
      match filename with
      | .pathName _ =>
        if moduleTopNames.contains "builtins" then
          .ok ⟨.readM, some ⟨[], false⟩, true, none,
            some (ReaderState.mk0 []), 0⟩
        else .error .nameError
      | .fileObj o =>
        .ok ⟨.readM, some o, false, none,
          some (ReaderState.mk0 o.content), 0⟩
      | .otherObj => .error .typeError
    else .error .valueError
  else if mode ∈ writeModes then
    if loOkWrite lo then
      match compressorOf lo with
      | .error _ => .error .configError
      | .ok c =>
        match filename with
        | .pathName _ =>
          if moduleTopNames.contains "builtins" then
            .ok ⟨.writeM, some ⟨[], false⟩, true, some c, none, 0⟩
          else .error .nameError
        | .fileObj o => .ok ⟨.writeM, some o, false, some c, none, 0⟩
        | .otherObj => .error .typeError
    else .error .valueError
  else .error .valueError

/-- Translated from `src/src/pyzstd.py` `zstd_open`: a mode holding both
the text and the binary marker is invalid; otherwise the text marker is
removed and a `ZstdFile` is built; the Bool records wrapping in a text
wrapper. -/
def zstd_open (filename : FileArg) (mode : List Char) (lo : LOpt)
    (zd : ZdArg) : Except PyErr (Bool × ZFile) :=
  if mode.contains 't' && mode.contains 'b' then .error .valueError
  else
    match ZFile.init filename (mode.filter (· ≠ 't')) lo zd with
    | .error e => .error e
    | .ok f => .ok (mode.contains 't', f)

/-- Translated from `ZstdFile.write`: check writability, compress the
data, write the compressed output to the file object, advance the
position and return the byte count. -/
def ZFile.write (f : ZFile) (data : Bytes) : Except PyErr (ZFile × Nat) :=
  match f.mode with
  | .closedM => .error .valueError
  | .readM => .error .unsupportedOp
  | .writeM =>
    match f.comp, f.fp with
    | some c, some o =>
      let r := c.compress data .more
      .ok ({ f with
               comp := some r.2
               fp := some { o with content := o.content ++ r.1 }
               pos := f.pos + data.length },
        data.length)
    | _, _ => .error .attrError

/-- Translated from `ZstdFile.close`: a closed file returns at once; a
read-mode file drops its buffer; a write-mode file writes the
compressor flush output (the frame trailer) to the file object; finally
the file object is closed when owned, and `_fp`, `_closefp` and `_mode`
are reset.  The second component is the final state of the underlying
file object, which outlives the wrapper. -/
def ZFile.close (f : ZFile) : Except PyErr (ZFile × Option FpObj) :=
  match f.mode with
  | .closedM => .ok (f, f.fp)
  | .readM =>
    match f.buffer with
    | some _ =>
      let fin := f.fp.map fun o =>
        if f.closefp then { o with fpClosed := true } else o
      .ok ({ f with
               mode := .closedM
               fp := none
               closefp := false
               buffer := none },
        fin)
    | none => .error .attrError
  | .writeM =>
    match f.comp, f.fp with
    | some c, some o =>
      let o2 : FpObj := { o with content := o.content ++ (c.flush).1 }
      let o3 := if f.closefp then { o2 with fpClosed := true } else o2
      .ok ({ f with
               mode := .closedM
               fp := none
               closefp := false
               comp := none },
        some o3)
    | _, _ => .error .attrError

/-- The `closed` property: true when the mode code is `_MODE_CLOSED`. -/
def ZFile.closedProp (f : ZFile) : Bool :=
  match f.mode with
  | .closedM => true
  | _ => false

/-- Well-formedness of a `ZFile` state, established at construction and
preserved by the operations: a read-mode file has its buffer and file
object, a write-mode file its compressor and file object, and a closed
file has released everything. -/
def Wf (f : ZFile) : Prop :=
  (f.mode = .readM → f.buffer.isSome ∧ f.fp.isSome) ∧
    (f.mode = .writeM → f.comp.isSome ∧ f.fp.isSome) ∧
    (f.mode = .closedM →
      f.fp = none ∧ f.closefp = false ∧ f.comp = none ∧ f.buffer = none)

/-! ### Claims about the file wrapper -/

/-- Claim C10: `close` is idempotent: after one call the mode is closed,
`_fp` is `None` and `closed` is true; every further call returns at once
without raising and leaves the state unchanged. -/
theorem C10_close_idempotent (f : ZFile) (h : Wf f) :
    ∃ f2 r, ZFile.close f = .ok (f2, r) ∧ f2.mode = .closedM ∧
      f2.fp = none ∧ f2.closedProp = true ∧
      ZFile.close f2 = .ok (f2, none) := by
  obtain ⟨hr, hw, hcl⟩ := h
  cases hm : f.mode with
  | closedM =>
    obtain ⟨hfp, hcf, hco, hbu⟩ := hcl hm
    refine ⟨f, f.fp, ?_, hm, hfp, ?_, ?_⟩
    · unfold ZFile.close
      rw [hm]
    · unfold ZFile.closedProp
      rw [hm]
    · unfold ZFile.close
      rw [hm, hfp]
  | readM =>
    obtain ⟨hbu, hfp⟩ := hr hm
    obtain ⟨b, hb⟩ := Option.isSome_iff_exists.mp hbu
    refine ⟨{ f with mode := .closedM, fp := none, closefp := false, buffer := none },
      f.fp.map (fun o => if f.closefp then { o with fpClosed := true } else o),
      ?_, ?_, ?_, ?_, ?_⟩
    · unfold ZFile.close
      rw [hm, hb]
    · rfl
    · rfl
    · rfl
    · rfl
  | writeM =>
    obtain ⟨hco, hfp⟩ := hw hm
    obtain ⟨c, hcc⟩ := Option.isSome_iff_exists.mp hco
    obtain ⟨o, hoo⟩ := Option.isSome_iff_exists.mp hfp
    refine ⟨{ f with mode := .closedM, fp := none, closefp := false, comp := none },
      some (if f.closefp then
          { { o with content := o.content ++ (c.flush).1 } with fpClosed := true }
        else { o with content := o.content ++ (c.flush).1 }),
      ?_, ?_, ?_, ?_, ?_⟩
    · unfold ZFile.close
      rw [hm, hcc, hoo]
    · rfl
    · rfl
    · rfl
    · rfl

/-- Witness for claim C10 at a concrete write-mode file. -/
theorem C10_close_idempotent_witness :
    ∃ f2 r,
      ZFile.close
          ⟨.writeM, some ⟨[], false⟩, false, some ⟨false, [], 0, 63, false⟩,
            none, 0⟩ = .ok (f2, r) ∧
        f2.mode = .closedM ∧ f2.fp = none ∧ f2.closedProp = true ∧
        ZFile.close f2 = .ok (f2, none) :=
  C10_close_idempotent _ (by constructor <;> simp [Wf])

/-- Claim C5: for a write-mode file, `write(data)` sends exactly the
compressor output for `data` to the underlying byte sink before
returning, and `close()` writes the remaining flushed output of the
compressor (the frame trailer) to the sink before closing. -/
theorem C5_write_flushes_to_sink (f : ZFile) (data : Bytes)
    (c : ZstdCompressor) (o : FpObj) (hm : f.mode = .writeM)
    (hc : f.comp = some c) (ho : f.fp = some o) :
    ZFile.write f data =
        .ok ({ f with
                 comp := some (c.compress data .more).2
                 fp := some
                   { o with content := o.content ++ (c.compress data .more).1 }
                 pos := f.pos + data.length },
          data.length) ∧
      ∃ f2 ofin, ZFile.close f = .ok (f2, some ofin) ∧
        ofin.content = o.content ++ (c.flush).1 := by
  constructor
  · unfold ZFile.write
    rw [hm, hc, ho]
  · refine ⟨{ f with mode := .closedM, fp := none, closefp := false, comp := none },
      if f.closefp then
        { { o with content := o.content ++ (c.flush).1 } with fpClosed := true }
      else { o with content := o.content ++ (c.flush).1 },
      ?_, ?_⟩
    · unfold ZFile.close
      rw [hm, hc, ho]
    · split
      · rfl
      · rfl

/-- Witness for claim C5 at a concrete write-mode file. -/
theorem C5_write_flushes_to_sink_witness :
    (ZFile.write
        ⟨.writeM, some ⟨[], false⟩, false, some ⟨false, [], 0, 63, false⟩,
          none, 0⟩ [7, 7]).isOk = true := by
  have h := C5_write_flushes_to_sink
    ⟨.writeM, some ⟨[], false⟩, false, some ⟨false, [], 0, 63, false⟩,
      none, 0⟩ [7, 7] ⟨false, [], 0, 63, false⟩ ⟨[], false⟩ rfl rfl rfl
  rw [h.1]
  rfl

/-! ### Construction-time validation -/

theorem not_read_of_write {m : List Char} (hm : m ∈ writeModes) :
    m ∉ readModes := by
  intro hr
  simp only [readModes, List.mem_cons, List.not_mem_nil, or_false] at hr
  rcases hr with rfl | rfl <;> simp [writeModes] at hm

theorem init_read_fileObj (o : FpObj) (m : List Char) (lo : LOpt)
    (zd : ZdArg) (hm : m ∈ readModes) (hzd : zd ≠ .zdBad)
    (hlo : loOkRead lo = true) :
    ZFile.init (.fileObj o) m lo zd =
      .ok ⟨.readM, some o, false, none,
        some (ReaderState.mk0 o.content), 0⟩ := by
  unfold ZFile.init
  rw [if_neg hzd, if_pos hm, if_pos hlo]

theorem init_write_fileObj (o : FpObj) (m : List Char) (lo : LOpt)
    (zd : ZdArg) (c : ZstdCompressor) (hm : m ∈ writeModes)
    (hzd : zd ≠ .zdBad) (hlo : loOkWrite lo = true)
    (hc : compressorOf lo = .ok c) :
    ZFile.init (.fileObj o) m lo zd =
      .ok ⟨.writeM, some o, false, some c, none, 0⟩ := by
  unfold ZFile.init
  rw [if_neg hzd, if_neg (not_read_of_write hm), if_pos hm, if_pos hlo, hc]

theorem step_no_config {st : Stage} {buf : Bytes} {e : ZErr}
    (h : step st buf = .fail e) : e ≠ .config := by
  cases st with
  | frameHeader =>
    simp only [step] at h
    split at h
    · split at h
      · cases h
      · cases h
        decide
    · cases h
  | inBlocks s =>
    match buf with
    | [] => simp [step] at h
    | 0 :: lastB :: n :: tail =>
      simp only [step] at h
      split at h
      · split at h <;> cases h
      · cases h
        decide
    | [0] | [0, lastB] => simp [step] at h
    | 1 :: lastB :: n :: b :: tail =>
      simp only [step] at h
      split at h
      · cases h
      · cases h
        decide
    | [1] | [1, lastB] | [1, lastB, n] => simp [step] at h
    | (k + 2) :: tail =>
      simp only [step] at h
      cases h
      decide
  | inTrailer s =>
    simp only [step] at h
    split at h
    · split at h
      · cases h
      · cases h
        decide
    · cases h

theorem drain_no_config {st : Stage} {buf : Bytes} {e : ZErr} {o : Bytes}
    (h : drain st buf = .bad e o) : e ≠ .config := by
  have H : ∀ (n : Nat) (st : Stage) (buf : Bytes) (e : ZErr) (o : Bytes),
      buf.length = n → drain st buf = .bad e o → e ≠ .config := by
    intro n
    induction n using Nat.strong_induction_on with
    | _ n ih =>
      intro st buf e o hn h
      cases hstep : step st buf with
      | needMore =>
        rw [drain_of_needMore hstep] at h
        cases h
      | fail e2 =>
        rw [drain_of_fail hstep] at h
        injection h with h1 h2
        subst h1
        exact step_no_config hstep
      | emit o1 s2 r2 =>
        have hc := step_consumes hstep
        rw [drain_of_emit hstep] at h
        cases hdr : drain s2 r2 with
        | good o2 s3 r3 =>
          rw [hdr] at h
          simp only [prependD] at h
          cases h
        | bad e2 o2 =>
          rw [hdr] at h
          simp only [prependD] at h
          injection h with h1 h2
          subst h1
          exact ih r2.length (by omega) s2 r2 e2 o2 rfl hdr
  exact H buf.length st buf e o rfl h

theorem decompressStep_no_config {d : ZstdDecompressor} {data : Bytes}
    {m : Option Nat} {e : ZErr}
    (h : d.decompress data m = .error e) : e ≠ .config := by
  unfold ZstdDecompressor.decompress at h
  cases hd : drain d.stage (d.buf ++ data) with
  | good o s r =>
    rw [hd] at h
    cases m <;> simp at h
  | bad e2 o =>
    rw [hd] at h
    simp only [] at h
    injection h with h1
    subst h1
    exact drain_no_config hd

theorem readerLoop_no_config :
    ∀ (fuel : Nat) (st : ReaderState) (size : Nat) (e : ZErr),
      readerLoop fuel st size = some (.error e) → e ≠ .config := by
  intro fuel
  induction fuel with
  | zero =>
    intro st size e h
    simp [readerLoop] at h
  | succ fl ih =>
    intro st size e h
    unfold readerLoop at h
    split at h
    · split at h
      · split at h
        · simp at h
        · simp only [Option.some_inj] at h
          injection h with h1
          subst h1
          decide
      · cases hdec : ZstdDecompressor.decompress st.dec (st.fp.take BUFSZ)
            (some size) with
        | error e2 =>
          rw [hdec] at h
          simp only [Option.some_inj] at h
          injection h with h1
          subst h1
          exact decompressStep_no_config hdec
        | ok pr =>
          rw [hdec] at h
          simp only [] at h
          split at h
          · exact ih _ size e h
          · simp at h
    · cases hdec : ZstdDecompressor.decompress st.dec [] (some size) with
      | error e2 =>
        rw [hdec] at h
        simp only [Option.some_inj] at h
        injection h with h1
        subst h1
        exact decompressStep_no_config hdec
      | ok pr =>
        rw [hdec] at h
        simp only [] at h
        split at h
        · exact ih _ size e h
        · simp at h

/-- Claim C6: mode and option validation happens exactly once, at
construction: an invalid mode string raises `ValueError` from
`ZstdFile.__init__`; a mode holding both the text and binary markers
raises `ValueError` from `zstd_open`; two constructions whose mode
strings map to the same mode code produce identical states, so no later
operation can re-interpret the mode string; a compression level outside
its bounds raises at construction, and neither a later `write` nor the
reader loop of a later `read` can raise a configuration error. -/
theorem C6_mode_validated_once :
    (∀ (fa : FileArg) (m : List Char) (lo : LOpt),
        m ∉ readModes → m ∉ writeModes →
        ZFile.init fa m lo .zdNone = .error .valueError) ∧
      (∀ (fa : FileArg) (m : List Char) (lo : LOpt) (zd : ZdArg),
        m.contains 't' = true → m.contains 'b' = true →
        zstd_open fa m lo zd = .error .valueError) ∧
      (∀ (o : FpObj) (m1 m2 : List Char) (lo : LOpt) (zd : ZdArg)
          (f1 f2 : ZFile),
        ZFile.init (.fileObj o) m1 lo zd = .ok f1 →
        ZFile.init (.fileObj o) m2 lo zd = .ok f2 →
        (m1 ∈ readModes ∧ m2 ∈ readModes) ∨
          (m1 ∈ writeModes ∧ m2 ∈ writeModes) →
        f1 = f2) ∧
      (∀ (o : FpObj) (lvl : Int),
        lvl < minCLevel ∨ maxCLevel < lvl →
        ZFile.init (.fileObj o) ['w'] (.levelInt lvl) .zdNone =
          .error .configError) ∧
      (∀ (f : ZFile) (data : Bytes), Wf f → f.mode = .writeM →
        ∃ f2, ZFile.write f data = .ok (f2, data.length)) ∧
      ∀ (fuel : Nat) (st : ReaderState) (size : Nat) (e : ZErr),
        readerLoop fuel st size = some (.error e) → e ≠ .config := by
  refine ⟨?_, ?_, ?_, ?_, ?_, readerLoop_no_config⟩
  · intro fa m lo hr hw
    unfold ZFile.init
    rw [if_neg (by simp), if_neg hr, if_neg hw]
  · intro fa m lo zd ht hb
    unfold zstd_open
    rw [if_pos (show (m.contains 't' && m.contains 'b') = true by
      rw [ht, hb]
      rfl)]
  · intro o m1 m2 lo zd f1 f2 h1 h2 hm
    have hzd : zd ≠ .zdBad := by
      intro hz
      subst hz
      simp [ZFile.init] at h1
    rcases hm with ⟨hr1, hr2⟩ | ⟨hw1, hw2⟩
    · by_cases hlo : loOkRead lo = true
      · rw [init_read_fileObj o m1 lo zd hr1 hzd hlo] at h1
        rw [init_read_fileObj o m2 lo zd hr2 hzd hlo] at h2
        cases h1
        cases h2
        rfl
      · have he : ZFile.init (.fileObj o) m1 lo zd = .error .valueError := by
          unfold ZFile.init
          rw [if_neg hzd, if_pos hr1, if_neg hlo]
        rw [he] at h1
        cases h1
    · by_cases hlo : loOkWrite lo = true
      · cases hco : compressorOf lo with
        | ok c =>
          rw [init_write_fileObj o m1 lo zd c hw1 hzd hlo hco] at h1
          rw [init_write_fileObj o m2 lo zd c hw2 hzd hlo hco] at h2
          cases h1
          cases h2
          rfl
        | error e =>
          have he : ZFile.init (.fileObj o) m1 lo zd =
              .error .configError := by
            unfold ZFile.init
            rw [if_neg hzd, if_neg (not_read_of_write hw1), if_pos hw1,
              if_pos hlo, hco]
          rw [he] at h1
          cases h1
      · have he : ZFile.init (.fileObj o) m1 lo zd = .error .valueError := by
          unfold ZFile.init
          rw [if_neg hzd, if_neg (not_read_of_write hw1), if_pos hw1,
            if_neg hlo]
        rw [he] at h1
        cases h1
  · intro o lvl hl
    have hc : compressorOf (.levelInt lvl) = .error .config := by
      show ZstdCompressor.new lvl .greedy = .error .config
      unfold ZstdCompressor.new
      rw [if_neg (by omega)]
    unfold ZFile.init
    rw [if_neg (by simp), if_neg (by simp [readModes]),
      if_pos (show ['w'] ∈ writeModes by simp [writeModes]),
      if_pos (show loOkWrite (.levelInt lvl) = true from rfl), hc]
  · intro f data hwf hm
    obtain ⟨-, h2, -⟩ := hwf
    obtain ⟨hc, hfp⟩ := h2 hm
    obtain ⟨c, hc2⟩ := Option.isSome_iff_exists.mp hc
    obtain ⟨o, ho2⟩ := Option.isSome_iff_exists.mp hfp
    refine ⟨{ f with comp := some (c.compress data .more).2, fp := some { o with content := o.content ++ (c.compress data .more).1 }, pos := f.pos + data.length }, ?_⟩
    unfold ZFile.write
    rw [hm, hc2, ho2]

/-- Witness for claim C6 at concrete inputs. -/
theorem C6_mode_validated_once_witness :
    ZFile.init (.fileObj ⟨[], false⟩) ['q'] .noneOpt .zdNone =
        .error .valueError ∧
      ZFile.init (.fileObj ⟨[], false⟩) ['w'] (.levelInt 99999) .zdNone =
        .error .configError := by
  constructor
  · exact C6_mode_validated_once.1 (.fileObj ⟨[], false⟩) ['q'] .noneOpt
      (by decide) (by decide)
  · exact C6_mode_validated_once.2.2.2.1 ⟨[], false⟩ 99999 (by decide)

/-- Claim C9: a path-like filename (str, bytes or PathLike) makes the
construction of a `ZstdFile` fail with `NameError`, because it evaluates
`builtins.open` while the module never imports `builtins`; only
file-object arguments can construct a `ZstdFile` successfully. -/
theorem C9_path_filename_name_error :
    (∀ (p : String) (m : List Char) (lo : LOpt) (zd : ZdArg),
        zd ≠ .zdBad →
        (m ∈ readModes ∧ loOkRead lo = true) ∨
          (m ∈ writeModes ∧ loOkWrite lo = true ∧
            ∃ c, compressorOf lo = .ok c) →
        ZFile.init (.pathName p) m lo zd = .error .nameError) ∧
      ∀ (fa : FileArg) (m : List Char) (lo : LOpt) (zd : ZdArg) (f : ZFile),
        ZFile.init fa m lo zd = .ok f → ∃ o, fa = .fileObj o := by
  constructor
  · intro p m lo zd hzd hok
    rcases hok with ⟨hm, hlo⟩ | ⟨hm, hlo, c, hco⟩
    · unfold ZFile.init
      rw [if_neg hzd, if_pos hm, if_pos hlo]
      simp only []
      rw [if_neg (by decide)]
    · unfold ZFile.init
      rw [if_neg hzd, if_neg (not_read_of_write hm), if_pos hm, if_pos hlo,
        hco]
      simp only []
      rw [if_neg (by decide)]
  · intro fa m lo zd f h
    cases fa with
    | fileObj o => exact ⟨o, rfl⟩
    | pathName p =>
      exfalso
      unfold ZFile.init at h
      by_cases hzd : zd = .zdBad
      · rw [if_pos hzd] at h
        cases h
      rw [if_neg hzd] at h
      by_cases hr : m ∈ readModes
      · rw [if_pos hr] at h
        by_cases hlo : loOkRead lo = true
        · rw [if_pos hlo] at h
          simp only [] at h
          rw [if_neg (by decide)] at h
          cases h
        · rw [if_neg hlo] at h
          cases h
      rw [if_neg hr] at h
      by_cases hw : m ∈ writeModes
      · rw [if_pos hw] at h
        by_cases hlo : loOkWrite lo = true
        · rw [if_pos hlo] at h
          cases hco : compressorOf lo with
          | error e =>
            rw [hco] at h
            cases h
          | ok c =>
            rw [hco] at h
            simp only [] at h
            rw [if_neg (by decide)] at h
            cases h
        · rw [if_neg hlo] at h
          cases h
      · rw [if_neg hw] at h
        cases h
    | otherObj =>
      exfalso
      unfold ZFile.init at h
      by_cases hzd : zd = .zdBad
      · rw [if_pos hzd] at h
        cases h
      rw [if_neg hzd] at h
      by_cases hr : m ∈ readModes
      · rw [if_pos hr] at h
        by_cases hlo : loOkRead lo = true
        · rw [if_pos hlo] at h
          simp only [] at h
          cases h
        · rw [if_neg hlo] at h
          cases h
      rw [if_neg hr] at h
      by_cases hw : m ∈ writeModes
      · rw [if_pos hw] at h
        by_cases hlo : loOkWrite lo = true
        · rw [if_pos hlo] at h
          cases hco : compressorOf lo with
          | error e =>
            rw [hco] at h
            cases h
          | ok c =>
            rw [hco] at h
            simp only [] at h
            cases h
        · rw [if_neg hlo] at h
          cases h
      · rw [if_neg hw] at h
        cases h

/-- Witness for claim C9 at a concrete input. -/
theorem C9_path_filename_name_error_witness :
    ZFile.init (.pathName "data.zst") ['r'] .noneOpt .zdNone =
      .error .nameError :=
  C9_path_filename_name_error.1 "data.zst" ['r'] .noneOpt .zdNone
    (by decide) (Or.inl ⟨by decide, rfl⟩)

/-! ### Reader invariant -/

theorem take_pos_ne_nil {l : Bytes} {n : Nat} (hl : l ≠ []) (hn : 0 < n) :
    l.take n ≠ [] := by
  cases l with
  | nil => exact absurd rfl hl
  | cons a t =>
    cases n with
    | zero => omega
    | succ m => simp

theorem isEmpty_false_of_ne_nil {l : Bytes} (h : l ≠ []) :
    l.isEmpty = false := by
  cases l with
  | nil => exact absurd rfl h
  | cons a t => rfl

/-- A decompressor whose retained buffer holds no complete unit. -/
def stuckDec (d : ZstdDecompressor) : Prop :=
  step d.stage d.buf = .needMore

/-- The reader invariant: the reader is not at eof, the decompressor
buffer is stuck, and the pending output followed by the decoding of the
buffered and unread input is exactly the remaining content `R`, with the
stream ending cleanly at a frame edge. -/
def streamOK (st : ReaderState) (R : Bytes) : Prop :=
  st.eof = false ∧ stuckDec st.dec ∧
    ∃ O, drain st.dec.stage (st.dec.buf ++ st.fp) = .good O .frameHeader [] ∧
      st.dec.pending ++ O = R

theorem decompress_nil_stuck {d : ZstdDecompressor} (h : stuckDec d)
    (size : Nat) :
    d.decompress [] (some size) =
      .ok (d.pending.take size, ⟨d.stage, d.buf, d.pending.drop size⟩) := by
  unfold ZstdDecompressor.decompress
  rw [List.append_nil, drain_of_needMore h]
  simp

theorem drain_split {st : Stage} {x y O : Bytes} {sf : Stage} {rf : Bytes}
    (h : drain st (x ++ y) = .good O sf rf) :
    ∃ o1 s1 r1 O2, drain st x = .good o1 s1 r1 ∧
      drain s1 (r1 ++ y) = .good O2 sf rf ∧ o1 ++ O2 = O := by
  have ha := drain_append st x y
  rw [h] at ha
  cases hd : drain st x with
  | good o1 s1 r1 =>
    rw [hd] at ha
    simp only [] at ha
    cases hd2 : drain s1 (r1 ++ y) with
    | good O2 s2 r2 =>
      rw [hd2] at ha
      simp only [prependD] at ha
      injection ha with h1 h2 h3
      exact ⟨o1, s1, r1, O2, rfl, by rw [hd2, h2, h3], h1.symm⟩
    | bad e o2 =>
      rw [hd2] at ha
      simp [prependD] at ha
  | bad e o1 =>
    rw [hd] at ha
    simp only [] at ha
    cases ha

/-- The invariant holds initially for a source of two compressed
frames. -/
theorem streamOK_frames (t1 t2 : Bool) (s1 s2 : Nat) (D1 D2 : Bytes) :
    streamOK (ReaderState.mk0 (frameBytes t1 s1 D1 ++ frameBytes t2 s2 D2))
      (D1 ++ D2) := by
  refine ⟨rfl, step_nil _, D1 ++ D2, ?_, rfl⟩
  show drain .frameHeader
      ([] ++ (frameBytes t1 s1 D1 ++ frameBytes t2 s2 D2)) = _
  rw [List.nil_append, frame_decode, drain_frame_nil]
  simp [prependD]

/-- At the end of the remaining content, the reader loop drains the rest
of the file object and sets the eof flag. -/
theorem readerLoop_end :
    ∀ (n : Nat) (st : ReaderState) (size : Nat), st.fp.length = n →
      streamOK st [] →
      ∃ fuel st2, readerLoop fuel st size = some (.ok ([], st2)) ∧
        st2.eof = true ∧ st2.fp = [] := by
  intro n
  induction n using Nat.strong_induction_on with
  | _ n ih =>
    intro st size hn hOK
    obtain ⟨heof, hstuck, O, hdr, hpend⟩ := hOK
    have hpe : st.dec.pending = [] :=
      (List.append_eq_nil.mp hpend).1
    have hO : O = [] := (List.append_eq_nil.mp hpend).2
    have hni : needsInput st.dec = true := by
      unfold needsInput
      rw [hpe]
      rfl
    by_cases hfp : st.fp = []
    · have hbe : drain st.dec.stage (st.dec.buf ++ st.fp) =
          .good [] st.dec.stage st.dec.buf := by
        rw [hfp, List.append_nil]
        exact drain_of_needMore hstuck
      rw [hO] at hdr
      rw [hbe] at hdr
      injection hdr with ha hb hc
      have hafe : atFrameEdge st.dec = true := by
        unfold atFrameEdge
        rw [hb, hc]
        rfl
      refine ⟨1, { st with eof := true, knownSize := some st.pos }, ?_, rfl,
        hfp⟩
      unfold readerLoop
      rw [if_pos hni, if_pos (by rw [hfp]; rfl), if_pos hafe]
    · obtain ⟨o1, s1, r1, O2, hd1, hd2, hsum⟩ := drain_split
        (show drain st.dec.stage
            ((st.dec.buf ++ st.fp.take BUFSZ) ++ st.fp.drop BUFSZ) =
            .good O .frameHeader [] by
          rw [List.append_assoc, List.take_append_drop]
          exact hdr)
      have ho1 : o1 = [] := by
        rw [hO] at hsum
        exact (List.append_eq_nil.mp hsum).1
      have hO2 : O2 = [] := by
        rw [hO] at hsum
        exact (List.append_eq_nil.mp hsum).2
      have hdec : st.dec.decompress (st.fp.take BUFSZ) (some size) =
          .ok ([], ⟨s1, r1, []⟩) := by
        unfold ZstdDecompressor.decompress
        rw [hd1]
        simp only []
        rw [hpe, ho1]
        simp
      have hOK2 : streamOK
          { st with fp := st.fp.drop BUFSZ, dec := (⟨s1, r1, []⟩ : ZstdDecompressor) }
          [] := by
        refine ⟨heof, drain_good_stuck hd1, [], ?_, rfl⟩
        show drain s1 (r1 ++ st.fp.drop BUFSZ) = .good [] .frameHeader []
        rw [hO2] at hd2
        exact hd2
      have hlen : (st.fp.drop BUFSZ).length < n := by
        have hpos : 0 < st.fp.length := List.length_pos.mpr hfp
        simp only [List.length_drop, BUFSZ]
        omega
      obtain ⟨f, st2, hloop, he2, hf2⟩ := ih (st.fp.drop BUFSZ).length hlen
        { st with fp := st.fp.drop BUFSZ, dec := ⟨s1, r1, []⟩ } size rfl hOK2
      refine ⟨f + 1, st2, ?_, he2, hf2⟩
      unfold readerLoop
      rw [if_pos hni, if_neg (by rw [isEmpty_false_of_ne_nil hfp]; simp),
        hdec]
      simp only []
      rw [if_pos (show (List.isEmpty ([] : Bytes)) = true from rfl)]
      exact hloop

/-- While content remains, the reader loop returns a nonempty prefix of
it and preserves the invariant on the remainder. -/
theorem readerLoop_progress :
    ∀ (n : Nat) (st : ReaderState) (size : Nat) (R : Bytes),
      st.fp.length = n → streamOK st R → R ≠ [] → 0 < size →
      ∃ fuel d st2 R2, readerLoop fuel st size = some (.ok (d, st2)) ∧
        d ≠ [] ∧ d ++ R2 = R ∧ streamOK st2 R2 := by
  intro n
  induction n using Nat.strong_induction_on with
  | _ n ih =>
    intro st size R hn hOK hR hsize
    obtain ⟨heof, hstuck, O, hdr, hpend⟩ := hOK
    by_cases hni : needsInput st.dec = true
    · have hpe : st.dec.pending = [] := by
        unfold needsInput at hni
        exact (isEmpty_true_iff _).mp hni
      have hOR : O = R := by
        rw [hpe] at hpend
        simpa using hpend
      by_cases hfp : st.fp = []
      · exfalso
        have hbe : drain st.dec.stage (st.dec.buf ++ st.fp) =
            .good [] st.dec.stage st.dec.buf := by
          rw [hfp, List.append_nil]
          exact drain_of_needMore hstuck
        rw [hbe] at hdr
        injection hdr with ha hb hc
        rw [← hOR, ← ha] at hR
        exact hR rfl
      · obtain ⟨o1, s1, r1, O2, hd1, hd2, hsum⟩ := drain_split
          (show drain st.dec.stage
              ((st.dec.buf ++ st.fp.take BUFSZ) ++ st.fp.drop BUFSZ) =
              .good O .frameHeader [] by
            rw [List.append_assoc, List.take_append_drop]
            exact hdr)
        have hstuck2 : stuckDec ⟨s1, r1, (o1).drop size⟩ :=
          drain_good_stuck hd1
        have hdec : st.dec.decompress (st.fp.take BUFSZ) (some size) =
            .ok (o1.take size, ⟨s1, r1, o1.drop size⟩) := by
          unfold ZstdDecompressor.decompress
          rw [hd1]
          simp only []
          rw [hpe]
          simp
        by_cases ho1 : o1 = []
        · subst ho1
          have hOK2 : streamOK
              { st with fp := st.fp.drop BUFSZ, dec := (⟨s1, r1, []⟩ : ZstdDecompressor) }
              R := by
            refine ⟨heof, drain_good_stuck hd1, O2, hd2, ?_⟩
            show [] ++ O2 = R
            rw [List.nil_append, ← hOR, ← hsum, List.nil_append]
          have hlen : (st.fp.drop BUFSZ).length < n := by
            have hpos : 0 < st.fp.length := List.length_pos.mpr hfp
            simp only [List.length_drop, BUFSZ]
            omega
          obtain ⟨f, d, st2, R2, hloop, hd, hsplit, hOK3⟩ :=
            ih (st.fp.drop BUFSZ).length hlen
              { st with fp := st.fp.drop BUFSZ, dec := ⟨s1, r1, []⟩ }
              size R rfl hOK2 hR hsize
          refine ⟨f + 1, d, st2, R2, ?_, hd, hsplit, hOK3⟩
          unfold readerLoop
          rw [if_pos hni, if_neg (by rw [isEmpty_false_of_ne_nil hfp]; simp),
            hdec]
          simp only [List.take_nil, List.drop_nil]
          rw [if_pos (show (List.isEmpty ([] : Bytes)) = true from rfl)]
          exact hloop
        · refine ⟨1, o1.take size,
            { st with fp := st.fp.drop BUFSZ, dec := (⟨s1, r1, o1.drop size⟩ : ZstdDecompressor), pos := st.pos + (o1.take size).length },
            o1.drop size ++ O2, ?_, take_pos_ne_nil ho1 hsize, ?_, ?_⟩
          · unfold readerLoop
            rw [if_pos hni, if_neg (by rw [isEmpty_false_of_ne_nil hfp]; simp),
              hdec]
            simp only []
            rw [if_neg (by rw [isEmpty_false_of_ne_nil
              (take_pos_ne_nil ho1 hsize)]; simp)]
          · rw [← List.append_assoc, List.take_append_drop, hsum, hOR]
          · refine ⟨heof, hstuck2, O2, hd2, rfl⟩
    · have hpne : st.dec.pending ≠ [] := by
        intro hp
        apply hni
        unfold needsInput
        rw [hp]
        rfl
      have hdec := decompress_nil_stuck hstuck size
      refine ⟨1, st.dec.pending.take size,
        { st with dec := (⟨st.dec.stage, st.dec.buf, st.dec.pending.drop size⟩ : ZstdDecompressor), pos := st.pos + (st.dec.pending.take size).length },
        st.dec.pending.drop size ++ O, ?_, take_pos_ne_nil hpne hsize, ?_, ?_⟩
      · unfold readerLoop
        rw [if_neg hni, hdec]
        simp only []
        rw [if_neg (by rw [isEmpty_false_of_ne_nil
          (take_pos_ne_nil hpne hsize)]; simp)]
      · rw [← List.append_assoc, List.take_append_drop]
        exact hpend
      · exact ⟨heof, hstuck, O, hdr, rfl⟩

/-! ### Fuel monotonicity -/

theorem readerLoop_mono :
    ∀ (f g : Nat) (st : ReaderState) (size : Nat)
      (r : Except ZErr (Bytes × ReaderState)),
      readerLoop f st size = some r → f ≤ g →
      readerLoop g st size = some r := by
  intro f
  induction f with
  | zero =>
    intro g st size r h
    simp [readerLoop] at h
  | succ fl ih =>
    intro g st size r h hle
    cases g with
    | zero => omega
    | succ gl =>
      have hgle : fl ≤ gl := by omega
      unfold readerLoop at h ⊢
      by_cases hni : needsInput st.dec = true
      · rw [if_pos hni] at h ⊢
        by_cases hfe : st.fp.isEmpty = true
        · rw [if_pos hfe] at h ⊢
          exact h
        · rw [if_neg hfe] at h ⊢
          cases hdec : st.dec.decompress (st.fp.take BUFSZ) (some size) with
          | error e =>
            rw [hdec] at h
            simp only [] at h ⊢
            exact h
          | ok pr =>
            obtain ⟨d, dec2⟩ := pr
            rw [hdec] at h
            simp only [] at h ⊢
            by_cases hde : d.isEmpty = true
            · rw [if_pos hde] at h ⊢
              exact ih gl _ size r h hgle
            · rw [if_neg hde] at h ⊢
              exact h
      · rw [if_neg hni] at h ⊢
        cases hdec : st.dec.decompress [] (some size) with
        | error e =>
          rw [hdec] at h
          simp only [] at h ⊢
          exact h
        | ok pr =>
          obtain ⟨d, dec2⟩ := pr
          rw [hdec] at h
          simp only [] at h ⊢
          by_cases hde : d.isEmpty = true
          · rw [if_pos hde] at h ⊢
            exact ih gl _ size r h hgle
          · rw [if_neg hde] at h ⊢
            exact h

theorem readerRead_mono {f g : Nat} {st : ReaderState} {size : Nat}
    {r : Except ZErr (Bytes × ReaderState)}
    (h : readerRead f st size = some r) (hle : f ≤ g) :
    readerRead g st size = some r := by
  unfold readerRead at h ⊢
  by_cases hc : (decide (size = 0) || st.eof) = true
  · rw [if_pos hc] at h ⊢
    exact h
  · rw [if_neg hc] at h ⊢
    exact readerLoop_mono f g st size r h hle

theorem readerReadAll_mono :
    ∀ (f g : Nat) (st : ReaderState)
      (r : Except ZErr (Bytes × ReaderState)),
      readerReadAll f st = some r → f ≤ g →
      readerReadAll g st = some r := by
  intro f
  induction f with
  | zero =>
    intro g st r h
    simp [readerReadAll] at h
  | succ fl ih =>
    intro g st r h hle
    cases g with
    | zero => omega
    | succ gl =>
      unfold readerReadAll at h ⊢
      cases hrr : readerRead (fl + 1) st SYSMAX with
      | none =>
        rw [hrr] at h
        cases h
      | some res =>
        have hrr2 := readerRead_mono hrr (show fl + 1 ≤ gl + 1 by omega)
        rw [hrr2]
        rw [hrr] at h
        cases res with
        | error e =>
          simp only [] at h ⊢
          exact h
        | ok pr =>
          obtain ⟨d, st2⟩ := pr
          simp only [] at h ⊢
          by_cases hde : d.isEmpty = true
          · rw [if_pos hde] at h ⊢
            exact h
          · rw [if_neg hde] at h ⊢
            cases hra : readerReadAll fl st2 with
            | none =>
              rw [hra] at h
              cases h
            | some r2 =>
              rw [hra] at h
              rw [ih gl st2 r2 hra (by omega)]
              exact h

/-! ### Reading everything -/

theorem readerReadAll_complete :
    ∀ (n : Nat) (R : Bytes) (st : ReaderState), R.length = n →
      streamOK st R →
      ∃ fuel st2, readerReadAll fuel st = some (.ok (R, st2)) ∧
        st2.eof = true ∧ st2.fp = [] := by
  intro n
  induction n using Nat.strong_induction_on with
  | _ n ih =>
    intro R st hn hOK
    by_cases hR : R = []
    · subst hR
      obtain ⟨f, st2, hloop, he2, hf2⟩ :=
        readerLoop_end st.fp.length st SYSMAX rfl hOK
      refine ⟨f + 1, st2, ?_, he2, hf2⟩
      unfold readerReadAll
      have hrr : readerRead (f + 1) st SYSMAX = some (.ok ([], st2)) := by
        unfold readerRead
        rw [if_neg (by rw [hOK.1]; decide)]
        exact readerLoop_mono f (f + 1) st SYSMAX _ hloop (by omega)
      rw [hrr]
      simp only []
      rw [if_pos (show (List.isEmpty ([] : Bytes)) = true from rfl)]
    · obtain ⟨f1, d, st2, R2, hloop, hdne, hsplit, hOK2⟩ :=
        readerLoop_progress st.fp.length st SYSMAX R rfl hOK hR (by decide)
      have hR2len : R2.length < n := by
        subst hn
        rw [← hsplit]
        have hdl : 0 < d.length := List.length_pos.mpr hdne
        simp only [List.length_append]
        omega
      obtain ⟨f2, st3, hall, he3, hf3⟩ := ih R2.length hR2len R2 st2 rfl hOK2
      refine ⟨max f1 f2 + 1, st3, ?_, he3, hf3⟩
      unfold readerReadAll
      have hrr : readerRead (max f1 f2 + 1) st SYSMAX =
          some (.ok (d, st2)) := by
        unfold readerRead
        rw [if_neg (by rw [hOK.1]; decide)]
        exact readerLoop_mono f1 (max f1 f2 + 1) st SYSMAX _ hloop (by omega)
      rw [hrr]
      simp only []
      rw [if_neg (by rw [isEmpty_false_of_ne_nil hdne]; simp),
        readerReadAll_mono f2 (max f1 f2) st2 _ hall (by omega)]
      simp only []
      rw [hsplit]

/-! ### Eof is reported only at source exhaustion -/

theorem readerLoop_eof_only :
    ∀ (fuel : Nat) (st : ReaderState) (size : Nat) (d : Bytes)
      (st2 : ReaderState), st.eof = false →
      readerLoop fuel st size = some (.ok (d, st2)) → st2.eof = true →
      st2.fp = [] := by
  intro fuel
  induction fuel with
  | zero =>
    intro st size d st2 he h
    simp [readerLoop] at h
  | succ fl ih =>
    intro st size d st2 he h he2
    unfold readerLoop at h
    by_cases hni : needsInput st.dec = true
    · rw [if_pos hni] at h
      by_cases hfe : st.fp.isEmpty = true
      · rw [if_pos hfe] at h
        by_cases hafe : atFrameEdge st.dec = true
        · rw [if_pos hafe] at h
          simp only [Option.some_inj, Except.ok.injEq, Prod.mk.injEq] at h
          obtain ⟨hd, hst⟩ := h
          rw [← hst]
          exact (isEmpty_true_iff _).mp hfe
        · rw [if_neg hafe] at h
          simp at h
      · rw [if_neg hfe] at h
        cases hdec : st.dec.decompress (st.fp.take BUFSZ) (some size) with
        | error e =>
          rw [hdec] at h
          simp at h
        | ok pr =>
          obtain ⟨dd, dec2⟩ := pr
          rw [hdec] at h
          simp only [] at h
          by_cases hde : dd.isEmpty = true
          · rw [if_pos hde] at h
            exact ih { st with fp := st.fp.drop BUFSZ, dec := dec2 } size d st2 he h he2
          · rw [if_neg hde] at h
            simp only [Option.some_inj, Except.ok.injEq, Prod.mk.injEq] at h
            obtain ⟨hd, hst⟩ := h
            exfalso
            have heq : st.eof = true := by
              rw [← he2, ← hst]
            rw [he] at heq
            cases heq
    · rw [if_neg hni] at h
      cases hdec : st.dec.decompress [] (some size) with
      | error e =>
        rw [hdec] at h
        simp at h
      | ok pr =>
        obtain ⟨dd, dec2⟩ := pr
        rw [hdec] at h
        simp only [] at h
        by_cases hde : dd.isEmpty = true
        · rw [if_pos hde] at h
          exact ih { st with dec := dec2 } size d st2 he h he2
        · rw [if_neg hde] at h
          simp only [Option.some_inj, Except.ok.injEq, Prod.mk.injEq] at h
          obtain ⟨hd, hst⟩ := h
          exfalso
          have heq : st.eof = true := by
            rw [← he2, ← hst]
          rw [he] at heq
          cases heq

/-- Claim C4: reading a stream of two concatenated frames through the
endless decompress reader yields exactly the concatenation of the two
decompressed contents, and the reader reports end of stream only when
the underlying byte source is exhausted. -/
theorem C4_concatenated_frames_reader (D1 D2 : Bytes) (t1 t2 : Bool)
    (s1 s2 : Nat) :
    (∃ fuel st2,
        readerReadAll fuel
            (ReaderState.mk0 (frameBytes t1 s1 D1 ++ frameBytes t2 s2 D2)) =
          some (.ok (D1 ++ D2, st2)) ∧
        st2.eof = true ∧ st2.fp = []) ∧
      ∀ (fuel : Nat) (st : ReaderState) (size : Nat) (d : Bytes)
        (st2 : ReaderState), st.eof = false →
        readerLoop fuel st size = some (.ok (d, st2)) → st2.eof = true →
        st2.fp = [] :=
  ⟨readerReadAll_complete (D1 ++ D2).length (D1 ++ D2) _ rfl
      (streamOK_frames t1 t2 s1 s2 D1 D2),
    readerLoop_eof_only⟩

/-- Witness for claim C4 at a concrete input. -/
theorem C4_concatenated_frames_reader_witness :
    (ReaderState.mk0 []).fp = [] :=
  (C4_concatenated_frames_reader [5] [6] true false 0 0).2 1
    (ReaderState.mk0 []) 1 []
    ⟨[], .mk0, 0, true, some 0⟩ rfl rfl rfl

end PyZstd
